import Mathlib

/-!
Verification of the RSA-DSignature-Socket secure file transfer system:
the chunk codec, the hybrid crypto engine, the transfer-session state
machine, the session registry, and the Flask key-generation endpoint.
-/

namespace SecureTransfer

/-- Error taxonomy of the system (spec section 7). -/
inductive TransferError where
  | KeyGenerationError
  | StorageError
  | NotFoundError
  | ConflictError
  | DecryptionError
  | IntegrityError
  | IncompleteError
  | TimeoutError
  | TransportError
deriving DecidableEq

/-! ## ChunkCodec -/

/-- Modelled from the spec: the ChunkCodec source file is not under src/.
`split(byteStream, chunkSizeBytes)` produces the sequence of
(sequenceNumber, rawBytes) pairs: sequence numbers start at `seq` and
increment by 1; each chunk takes the next `c` bytes, the final chunk may
be shorter.  The first argument is fuel bounding the recursion; `split`
below instantiates it with the stream length, which suffices whenever
`c > 0`. -/
def splitAux : Nat → Nat → Nat → List Nat → List (Nat × List Nat)
  | 0, _, _, _ => []
  | _ + 1, _, _, [] => []
  | fuel + 1, c, seq, b :: bs =>
      (seq, (b :: bs).take c) :: splitAux fuel c (seq + 1) ((b :: bs).drop c)

/-- Modelled from the spec: `ChunkCodec.split` with sequence numbers
starting at 0. -/
def split (bytes : List Nat) (c : Nat) : List (Nat × List Nat) :=
  splitAux bytes.length c 0 bytes

/-- The list of chunk payload sizes produced when splitting a stream of
`f` bytes into chunks of `c` bytes (first argument is fuel). -/
def chunkSizes (c : Nat) : Nat → Nat → List Nat
  | 0, _ => []
  | fuel + 1, f => if f = 0 then [] else min c f :: chunkSizes c fuel (f - c)

/-- Modelled from the spec: receiver-side reassembly state.  Chunks must
be applied strictly in sequence order; `nextExpected` is
`lastAppliedSequence + 1` (0 when nothing has been applied yet), and
`buffer` holds the bytes of the applied prefix.  Nothing is buffered for
future sequence numbers. -/
structure ReassemblyState where
  nextExpected : Nat
  buffer : List Nat
deriving DecidableEq

/-- Fresh reassembly state: no chunk applied yet. -/
def initReassembly : ReassemblyState := ⟨0, []⟩

/-- Modelled from the spec: applying one chunk.  A chunk whose sequence
number is not `lastAppliedSequence + 1` (i.e. not `nextExpected`) is
rejected as out-of-order (`none`); an accepted chunk appends its bytes to
the buffer. -/
def applyChunk (st : ReassemblyState) (chunk : Nat × List Nat) :
    Option ReassemblyState :=
  if chunk.1 = st.nextExpected then
    some ⟨st.nextExpected + 1, st.buffer ++ chunk.2⟩
  else
    none

/-- Applying a list of chunks in order; fails if any chunk is rejected. -/
def applyAll (st : ReassemblyState) : List (Nat × List Nat) → Option ReassemblyState
  | [] => some st
  | ch :: rest =>
      match applyChunk st ch with
      | some st2 => applyAll st2 rest
      | none => none

/-- Modelled from the spec: finalizing reassembly signals
`IncompleteError` if not all expected sequence numbers `[0, totalChunks)`
have been applied; otherwise it yields the reassembled byte stream. -/
def finalizeReassembly (st : ReassemblyState) (totalChunks : Nat) :
    Except TransferError (List Nat) :=
  if st.nextExpected < totalChunks then
    .error .IncompleteError
  else
    .ok st.buffer

/-- Modelled from the spec: `ChunkCodec.reassemble` — strictly sequential
application of the given chunks followed by finalization against the
expected chunk count. -/
def reassemble (chunks : List (Nat × List Nat)) (totalChunks : Nat) :
    Except TransferError (List Nat) :=
  match applyAll initReassembly chunks with
  | some st => finalizeReassembly st totalChunks
  | none => .error .TransportError

/-! ## ChunkCodec lemmas -/

theorem splitAux_nil (fuel c seq : Nat) : splitAux fuel c seq [] = [] := by
  cases fuel <;> rfl

theorem splitAux_applyAll (fuel c : Nat) (hc : 0 < c) :
    ∀ (bs : List Nat) (seq : Nat) (acc : List Nat), bs.length ≤ fuel →
      applyAll ⟨seq, acc⟩ (splitAux fuel c seq bs) =
        some ⟨seq + (splitAux fuel c seq bs).length, acc ++ bs⟩ := by
  induction fuel with
  | zero =>
      intro bs seq acc hlen
      have hbs : bs = [] := List.eq_nil_of_length_eq_zero (Nat.le_zero.mp hlen)
      subst hbs
      simp [splitAux, applyAll]
  | succ fuel ih =>
      intro bs seq acc hlen
      cases bs with
      | nil => simp [splitAux, applyAll]
      | cons b bs =>
          have hdroplen : ((b :: bs).drop c).length ≤ fuel := by
            rw [List.length_drop]
            simp only [List.length_cons] at hlen ⊢
            omega
          have hrec := ih ((b :: bs).drop c) (seq + 1) (acc ++ (b :: bs).take c) hdroplen
          have hchunk : applyChunk ⟨seq, acc⟩ (seq, (b :: bs).take c) =
              some ⟨seq + 1, acc ++ (b :: bs).take c⟩ := by
            simp [applyChunk]
          simp only [splitAux, applyAll]
          rw [hchunk]
          show applyAll ⟨seq + 1, acc ++ (b :: bs).take c⟩
              (splitAux fuel c (seq + 1) ((b :: bs).drop c)) = _
          rw [hrec]
          simp only [Option.some.injEq, ReassemblyState.mk.injEq, List.length_cons,
            List.append_assoc, List.take_append_drop]
          exact ⟨by omega, trivial⟩

theorem splitAux_length (fuel c : Nat) (hc : 0 < c) :
    ∀ (bs : List Nat) (seq : Nat), bs.length ≤ fuel →
      (splitAux fuel c seq bs).length = (bs.length + c - 1) / c := by
  induction fuel with
  | zero =>
      intro bs seq hlen
      have hbs : bs = [] := List.eq_nil_of_length_eq_zero (Nat.le_zero.mp hlen)
      subst hbs
      simp [splitAux, Nat.div_eq_of_lt (by omega : c - 1 < c)]
  | succ fuel ih =>
      intro bs seq hlen
      cases bs with
      | nil => simp [splitAux, Nat.div_eq_of_lt (by omega : c - 1 < c)]
      | cons b bs =>
          have hdroplen : ((b :: bs).drop c).length ≤ fuel := by
            rw [List.length_drop]
            simp only [List.length_cons] at hlen ⊢
            omega
          simp only [splitAux, List.length_cons]
          rw [ih _ (seq + 1) hdroplen]
          rw [List.length_drop]
          simp only [List.length_cons]
          rcases Nat.lt_or_ge bs.length c with hlt | hge
          · have h1 : bs.length + 1 - c + c - 1 < c := by omega
            rw [Nat.div_eq_of_lt h1]
            have h2 : bs.length + 1 + c - 1 = bs.length + c := by omega
            rw [h2]
            have h3 : (bs.length + c) / c = bs.length / c + 1 := Nat.add_div_right _ hc
            rw [h3, Nat.div_eq_of_lt hlt]
          · have h2 : bs.length + 1 - c + c - 1 = bs.length := by omega
            rw [h2]
            have h3 : bs.length + 1 + c - 1 = bs.length + c := by omega
            rw [h3, Nat.add_div_right _ hc]

theorem splitAux_map_fst (fuel c : Nat) :
    ∀ (bs : List Nat) (seq : Nat),
      (splitAux fuel c seq bs).map Prod.fst =
        List.range' seq (splitAux fuel c seq bs).length := by
  induction fuel with
  | zero => intro bs seq; simp [splitAux]
  | succ fuel ih =>
      intro bs seq
      cases bs with
      | nil => simp [splitAux]
      | cons b bs =>
          simp only [splitAux, List.map_cons, List.length_cons]
          rw [ih _ (seq + 1)]
          rw [List.range'_succ]

theorem splitAux_map_size (fuel c : Nat) :
    ∀ (bs : List Nat) (seq : Nat),
      (splitAux fuel c seq bs).map (fun p => p.2.length) =
        chunkSizes c fuel bs.length := by
  induction fuel with
  | zero => intro bs seq; simp [splitAux, chunkSizes]
  | succ fuel ih =>
      intro bs seq
      cases bs with
      | nil => simp [splitAux, chunkSizes]
      | cons b bs =>
          simp only [splitAux, List.map_cons, chunkSizes, List.length_cons]
          rw [if_neg (by omega)]
          rw [ih _ (seq + 1), List.length_drop, List.length_take]
          simp

theorem splitAux_size_le (fuel c : Nat) :
    ∀ (bs : List Nat) (seq : Nat), ∀ p ∈ splitAux fuel c seq bs, p.2.length ≤ c := by
  induction fuel with
  | zero => intro bs seq p hp; simp [splitAux] at hp
  | succ fuel ih =>
      intro bs seq p hp
      cases bs with
      | nil => simp [splitAux] at hp
      | cons b bs =>
          simp only [splitAux, List.mem_cons] at hp
          rcases hp with hp | hp
          · subst hp
            simp [List.length_take]
          · exact ih _ _ p hp

theorem splitAux_dropLast_size (fuel c : Nat) :
    ∀ (bs : List Nat) (seq : Nat),
      ∀ p ∈ (splitAux fuel c seq bs).dropLast, p.2.length = c := by
  induction fuel with
  | zero => intro bs seq p hp; simp [splitAux] at hp
  | succ fuel ih =>
      intro bs seq p hp
      cases bs with
      | nil => simp [splitAux] at hp
      | cons b bs =>
          simp only [splitAux] at hp
          rcases hrest : splitAux fuel c (seq + 1) ((b :: bs).drop c) with _ | ⟨q, rest⟩
          · rw [hrest] at hp
            simp at hp
          · rw [hrest, List.dropLast_cons₂] at hp
            rcases List.mem_cons.mp hp with hp | hp
            · subst hp
              have hdrop : (b :: bs).drop c ≠ [] := by
                intro hnil
                rw [hnil, splitAux_nil] at hrest
                exact List.noConfusion hrest
              have hlen : c < (b :: bs).length := by
                by_contra hle
                exact hdrop (List.drop_eq_nil_of_le (by omega))
              simp only [List.length_cons] at hlen
              simp only [List.length_take, List.length_cons]
              omega
            · rw [← hrest] at hp
              exact ih _ _ p hp

/-- C1: for every file byte stream F and every chunk size C > 0, applying
reassemble to the chunks produced by split(F, C), in sequence order,
reproduces exactly the original byte stream F. -/
theorem split_reassemble_roundTrip (F : List Nat) (c : Nat) (hc : 0 < c) :
    reassemble (split F c) (split F c).length = .ok F := by
  unfold reassemble split initReassembly
  rw [splitAux_applyAll F.length c hc F 0 [] (le_refl _)]
  simp [finalizeReassembly]

/-- Witness for C1 at a concrete stream and chunk size. -/
theorem split_reassemble_roundTrip_witness :
    reassemble (split [1, 2, 3, 4, 5] 2) (split [1, 2, 3, 4, 5] 2).length =
      .ok [1, 2, 3, 4, 5] :=
  split_reassemble_roundTrip [1, 2, 3, 4, 5] 2 (by decide)

/-- C4: during reassembly a chunk is accepted iff its sequence number is
`nextExpected` (= lastAppliedSequence + 1); applying sequence 0, 2, 1
rejects chunk 2 (and the model buffers nothing beyond the applied
prefix); finalizing before every sequence number in [0, totalChunks)
has been applied fails with IncompleteError. -/
theorem sequential_application_iff (st : ReassemblyState) (ch : Nat × List Nat)
    (total : Nat) :
    ((applyChunk st ch).isSome = true ↔ ch.1 = st.nextExpected)
    ∧ (∀ d0 d1 d2 : List Nat,
        applyAll initReassembly [(0, d0), (2, d2), (1, d1)] = none
        ∧ applyChunk ⟨1, d0⟩ (2, d2) = none)
    ∧ (st.nextExpected < total →
        finalizeReassembly st total = Except.error TransferError.IncompleteError) := by
  refine ⟨?_, ?_, ?_⟩
  · by_cases h : ch.1 = st.nextExpected <;> simp [applyChunk, h]
  · intro d0 d1 d2
    constructor <;> simp [applyAll, applyChunk, initReassembly]
  · intro h
    simp [finalizeReassembly, h]

/-- Witness for C4 at a concrete reassembly state and chunk total. -/
theorem sequential_application_iff_witness :
    (1 : Nat) < 2
    ∧ finalizeReassembly ⟨1, [7]⟩ 2 = Except.error TransferError.IncompleteError :=
  ⟨by decide, (sequential_application_iff ⟨1, [7]⟩ (0, []) 2).2.2 (by decide)⟩

/-- C6: split assigns sequence numbers 0, 1, 2, ... with no gaps, every
chunk except possibly the last has exactly C bytes, every chunk has at
most C bytes, the chunk count is ceil(fileSizeBytes / C), and a
10000-byte stream with C = 4000 yields exactly chunks of 4000, 4000 and
2000 bytes. -/
theorem split_shape (F : List Nat) (c : Nat) (hc : 0 < c) :
    (split F c).map Prod.fst = List.range (split F c).length
    ∧ (∀ p ∈ (split F c).dropLast, p.2.length = c)
    ∧ (∀ p ∈ split F c, p.2.length ≤ c)
    ∧ (split F c).length = (F.length + c - 1) / c
    ∧ (split (List.replicate 10000 0) 4000).map (fun p => p.2.length) =
        [4000, 4000, 2000] := by
  refine ⟨?_, ?_, ?_, ?_, ?_⟩
  · rw [split, splitAux_map_fst, List.range_eq_range']
  · exact splitAux_dropLast_size F.length c F 0
  · exact splitAux_size_le F.length c F 0
  · exact splitAux_length F.length c hc F 0 (le_refl _)
  · rw [split, splitAux_map_size, List.length_replicate]
    decide

/-- Witness for C6 at a concrete stream and chunk size. -/
theorem split_shape_witness :
    (0 : Nat) < 2
    ∧ (split [1, 2, 3, 4, 5] 2).length = (([1, 2, 3, 4, 5] : List Nat).length + 2 - 1) / 2 :=
  ⟨by decide, (split_shape [1, 2, 3, 4, 5] 2 (by decide)).2.2.2.1⟩

/-! ## TransferSession states -/

/-- Modelled from the spec: the TransferSession states
`Initiated → KeyExchanged → Streaming → Completed`, with terminal `Failed`
and `TimedOut`. -/
inductive SessionState where
  | Initiated
  | KeyExchanged
  | Streaming
  | Completed
  | Failed
  | TimedOut
deriving DecidableEq

/-- `Completed`, `Failed` and `TimedOut` are the terminal states. -/
def SessionState.isTerminal : SessionState → Bool
  | .Completed => true
  | .Failed => true
  | .TimedOut => true
  | _ => false

/-! ## CryptoEngine -/

/-- Modelled from the spec: the CryptoEngine source file is not under src/.
A public key, identified by the identity of the key pair it belongs to. -/
structure PublicKey where
  keyId : Nat
deriving DecidableEq

/-- Modelled from the spec: the private half of a key pair, retained by its
owner. -/
structure PrivateKey where
  keyId : Nat
deriving DecidableEq

/-- Modelled from the spec: `generateKeyPair` — a fresh asymmetric key pair;
the public and private halves share the pair identity `seed`. -/
def generateKeyPair (seed : Nat) : PublicKey × PrivateKey := (⟨seed⟩, ⟨seed⟩)

/-- Modelled from the spec: the symmetric key encrypted under the receiver
public key (ideal asymmetric cipher: the payload is only recoverable through
the matching private key, enforced by `decryptEnvelopeHeader`). -/
structure EncryptedSymKey where
  keyId : Nat
  payload : Nat
deriving DecidableEq

/-- Modelled from the spec: asymmetric encryption of the session symmetric
key under the receiver public key. -/
def encryptSymKey (pub : PublicKey) (symKey : Nat) : EncryptedSymKey :=
  ⟨pub.keyId, symKey⟩

/-- Modelled from the spec: `decryptEnvelopeHeader` — fails with
`DecryptionError` if the private key does not match. -/
def decryptEnvelopeHeader (esk : EncryptedSymKey) (priv : PrivateKey) :
    Except TransferError Nat :=
  if esk.keyId = priv.keyId then .ok esk.payload else .error .DecryptionError

/-- Modelled from the spec: symmetric encryption of one plaintext byte. -/
def symEncByte (key b : Nat) : Nat := (b + key) % 256

/-- Modelled from the spec: symmetric decryption of one ciphertext byte,
inverse of `symEncByte` on bytes. -/
def symDecByte (key b : Nat) : Nat := (b + (256 - key % 256)) % 256

/-- Modelled from the spec: the AEAD authentication tag over a ciphertext,
keyed by the symmetric key and the chunk nonce. -/
def macTag (key nonce : Nat) (ct : List Nat) : List Nat :=
  ct.map (fun b => (b + key + nonce) % 256)

/-- Modelled from the spec: one encrypted chunk — sequence number,
ciphertext and authentication tag. -/
structure EncryptedChunk where
  sequenceNumber : Nat
  ciphertext : List Nat
  authenticationTag : List Nat
deriving DecidableEq

/-- Modelled from the spec: authenticated symmetric encryption of one chunk
under the session key and a per-chunk nonce. -/
def encryptChunk (key nonce seq : Nat) (pt : List Nat) : EncryptedChunk :=
  ⟨seq, pt.map (symEncByte key), macTag key nonce (pt.map (symEncByte key))⟩

/-- Modelled from the spec: `decryptChunk` — verifies the authentication tag
first and fails with `IntegrityError` when it does not match, releasing no
plaintext at all in that case. -/
def decryptChunk (ech : EncryptedChunk) (key nonce : Nat) :
    Except TransferError (List Nat) :=
  if ech.authenticationTag = macTag key nonce ech.ciphertext then
    .ok (ech.ciphertext.map (symDecByte key))
  else
    .error .IntegrityError

/-- Modelled from the spec: `encryptForTransfer` — one symmetric key for the
whole transfer, encrypted under the receiver public key; every chunk
encrypted under that key with nonce = per-session salt + sequence number. -/
def encryptForTransfer (pts : List (Nat × List Nat)) (pub : PublicKey)
    (symKey salt : Nat) : EncryptedSymKey × List EncryptedChunk :=
  (encryptSymKey pub symKey,
   pts.map (fun p => encryptChunk symKey (salt + p.1) p.1 p.2))

/-- Modelled from the spec: receiver-side decryption of a chunk sequence with
the recovered symmetric key; any failing chunk aborts the whole transfer. -/
def decryptTransferChunks (key salt : Nat) :
    List EncryptedChunk → Except TransferError (List (Nat × List Nat))
  | [] => .ok []
  | ch :: rest =>
      match decryptChunk ch key (salt + ch.sequenceNumber) with
      | .ok pt =>
          match decryptTransferChunks key salt rest with
          | .ok pts => .ok ((ch.sequenceNumber, pt) :: pts)
          | .error e => .error e
      | .error e => .error e

/-- Modelled from the spec: full hybrid decryption — recover the symmetric
key from the envelope header with the private key, then decrypt every
chunk. -/
def decryptTransfer (esk : EncryptedSymKey) (chunks : List EncryptedChunk)
    (priv : PrivateKey) (salt : Nat) :
    Except TransferError (List (Nat × List Nat)) :=
  match decryptEnvelopeHeader esk priv with
  | .ok key => decryptTransferChunks key salt chunks
  | .error e => .error e

/-- Flipping bit `bit` of the byte at position `i` of a byte list. -/
def flipBit (bytes : List Nat) (i bit : Nat) : List Nat :=
  bytes.set i (bytes.getD i 0 ^^^ 2 ^ bit)

/-- Modelled from the spec: receiver handling of one incoming encrypted
chunk: an `IntegrityError` (or any decryption failure) fails the session
immediately and releases no plaintext; on success the plaintext is handed
on and the session state is untouched here. -/
def receiveChunk (s : SessionState) (ech : EncryptedChunk) (key nonce : Nat) :
    SessionState × Option (List Nat) :=
  match decryptChunk ech key nonce with
  | .error _ => (SessionState.Failed, none)
  | .ok pt => (s, some pt)

/-! ## CryptoEngine lemmas -/

theorem symDecByte_symEncByte (key b : Nat) (hb : b < 256) :
    symDecByte key (symEncByte key b) = b := by
  simp only [symEncByte, symDecByte]
  omega

theorem symDec_map_symEnc (key : Nat) (l : List Nat) (hl : ∀ b ∈ l, b < 256) :
    (l.map (symEncByte key)).map (symDecByte key) = l := by
  induction l with
  | nil => rfl
  | cons b t ih =>
      simp only [List.map_cons, List.cons.injEq]
      exact ⟨symDecByte_symEncByte key b (hl b (List.mem_cons_self b t)),
        ih (fun x hx => hl x (List.mem_cons_of_mem b hx))⟩

theorem decryptChunk_encryptChunk (key nonce seq : Nat) (pt : List Nat)
    (hpt : ∀ b ∈ pt, b < 256) :
    decryptChunk (encryptChunk key nonce seq pt) key nonce = .ok pt := by
  simp [decryptChunk, encryptChunk, symDec_map_symEnc key pt hpt]

theorem decryptTransferChunks_encrypt (key salt : Nat) (pts : List (Nat × List Nat))
    (hb : ∀ p ∈ pts, ∀ b ∈ p.2, b < 256) :
    decryptTransferChunks key salt
        (pts.map (fun p => encryptChunk key (salt + p.1) p.1 p.2)) = .ok pts := by
  induction pts with
  | nil => rfl
  | cons p t ih =>
      have h1 := decryptChunk_encryptChunk key (salt + p.1) p.1 p.2
        (hb p (List.mem_cons_self p t))
      have h2 := ih (fun q hq => hb q (List.mem_cons_of_mem p hq))
      have hseq : (encryptChunk key (salt + p.1) p.1 p.2).sequenceNumber = p.1 := rfl
      simp [decryptTransferChunks, hseq, h1, h2]

theorem flipBit_ne (l : List Nat) (i bit : Nat) (hi : i < l.length) :
    flipBit l i bit ≠ l := by
  intro heq
  unfold flipBit at heq
  have hcong := congrArg (fun t => t[i]?) heq
  simp only [List.getElem?_set_self, hi, if_pos, List.getElem?_eq_getElem] at hcong
  have hgd : l.getD i 0 = l[i] := List.getD_eq_getElem l 0 hi
  rw [hgd] at hcong
  have hx : l[i] ^^^ 2 ^ bit = l[i] := Option.some.inj hcong
  have hzero : (2 : Nat) ^ bit = 0 := Nat.xor_right_injective
    (show l[i] ^^^ 2 ^ bit = l[i] ^^^ 0 by rw [Nat.xor_zero]; exact hx)
  exact absurd hzero (Nat.two_pow_pos bit).ne'

theorem macTag_flipBit_ne (key nonce i bit : Nat) (ct : List Nat)
    (hct : ∀ b ∈ ct, b < 256) (hi : i < ct.length) (hbit : bit < 8) :
    macTag key nonce (flipBit ct i bit) ≠ macTag key nonce ct := by
  intro heq
  have hgd : ct.getD i 0 = ct[i] := List.getD_eq_getElem ct 0 hi
  have hcong := congrArg (fun t => t[i]?) heq
  simp only [macTag, flipBit, List.getElem?_map, List.getElem?_set_self, hi, if_pos,
    List.getElem?_eq_getElem, hgd] at hcong
  have hfx : ((ct[i] ^^^ 2 ^ bit) + key + nonce) % 256 = (ct[i] + key + nonce) % 256 := by
    simpa using hcong
  have hmem : ct[i] < 256 := hct _ (List.getElem_mem hi)
  have hflip : ct[i] ^^^ 2 ^ bit < 256 :=
    Nat.xor_lt_two_pow (n := 8) hmem (Nat.pow_lt_pow_right one_lt_two hbit)
  have hne : ct[i] ^^^ 2 ^ bit ≠ ct[i] := by
    intro hx
    exact absurd (Nat.xor_right_injective
      (show ct[i] ^^^ 2 ^ bit = ct[i] ^^^ 0 by rw [Nat.xor_zero]; exact hx))
      (Nat.two_pow_pos bit).ne'
  have hinj : ∀ u v : Nat, (u + key + nonce) % 256 = (v + key + nonce) % 256 →
      u < 256 → v < 256 → u = v := by
    intro u v h1 h2 h3
    omega
  exact hne (hinj _ _ hfx hflip hmem)

/-- C2: hybrid decryption with the matching private key reproduces the
plaintext chunk stream exactly; with any other private key it fails with
DecryptionError. -/
theorem hybrid_encrypt_decrypt (pts : List (Nat × List Nat)) (pub : PublicKey)
    (priv othPriv : PrivateKey) (symKey salt : Nat)
    (hbytes : ∀ p ∈ pts, ∀ b ∈ p.2, b < 256)
    (hmatch : priv.keyId = pub.keyId) (hother : othPriv.keyId ≠ pub.keyId) :
    decryptTransfer (encryptForTransfer pts pub symKey salt).1
        (encryptForTransfer pts pub symKey salt).2 priv salt = .ok pts
    ∧ decryptTransfer (encryptForTransfer pts pub symKey salt).1
        (encryptForTransfer pts pub symKey salt).2 othPriv salt =
      Except.error TransferError.DecryptionError := by
  constructor
  · simp [decryptTransfer, encryptForTransfer, encryptSymKey, decryptEnvelopeHeader,
      hmatch, decryptTransferChunks_encrypt symKey salt pts hbytes]
  · have hne : pub.keyId ≠ othPriv.keyId := fun h => hother h.symm
    simp [decryptTransfer, encryptForTransfer, encryptSymKey, decryptEnvelopeHeader, hne]

/-- Witness for C2 at a concrete plaintext, key pair and foreign key. -/
theorem hybrid_encrypt_decrypt_witness :
    decryptTransfer (encryptForTransfer [(0, [10, 20])] ⟨1⟩ 5 3).1
        (encryptForTransfer [(0, [10, 20])] ⟨1⟩ 5 3).2 ⟨1⟩ 3 = .ok [(0, [10, 20])]
    ∧ decryptTransfer (encryptForTransfer [(0, [10, 20])] ⟨1⟩ 5 3).1
        (encryptForTransfer [(0, [10, 20])] ⟨1⟩ 5 3).2 ⟨2⟩ 3 =
      Except.error TransferError.DecryptionError :=
  hybrid_encrypt_decrypt [(0, [10, 20])] ⟨1⟩ ⟨1⟩ ⟨2⟩ 5 3 (by decide) rfl (by decide)

/-- C3: flipping any single bit of a chunk's ciphertext or of its
authentication tag makes decryptChunk fail with IntegrityError (no
plaintext, not even partial, is returned), and a chunk whose tag check
fails makes the receiver fail the session immediately. -/
theorem tamper_chunk_integrityError (key nonce seq i bit : Nat) (pt : List Nat)
    (s : SessionState)
    (hi : i < (encryptChunk key nonce seq pt).ciphertext.length) (hbit : bit < 8) :
    decryptChunk ⟨seq, flipBit (encryptChunk key nonce seq pt).ciphertext i bit,
        (encryptChunk key nonce seq pt).authenticationTag⟩ key nonce =
      Except.error TransferError.IntegrityError
    ∧ decryptChunk ⟨seq, (encryptChunk key nonce seq pt).ciphertext,
        flipBit (encryptChunk key nonce seq pt).authenticationTag i bit⟩ key nonce =
      Except.error TransferError.IntegrityError
    ∧ (∀ ech : EncryptedChunk,
        decryptChunk ech key nonce = Except.error TransferError.IntegrityError →
        receiveChunk s ech key nonce = (SessionState.Failed, none)) := by
  simp only [encryptChunk] at hi ⊢
  have hct : ∀ b ∈ pt.map (symEncByte key), b < 256 := by
    intro b hb
    simp only [List.mem_map] at hb
    obtain ⟨x, _, hx⟩ := hb
    rw [← hx]
    simp only [symEncByte]
    omega
  refine ⟨?_, ?_, ?_⟩
  · have hne := macTag_flipBit_ne key nonce i bit (pt.map (symEncByte key)) hct hi hbit
    simp [decryptChunk, Ne.symm hne]
  · have hlen : i < (macTag key nonce (pt.map (symEncByte key))).length := by
      simpa [macTag] using hi
    have hne := flipBit_ne (macTag key nonce (pt.map (symEncByte key))) i bit hlen
    simp [decryptChunk, hne]
  · intro ech h
    simp [receiveChunk, h]

/-- Witness for C3 at a concrete key, nonce, plaintext, byte position and
bit position. -/
theorem tamper_chunk_integrityError_witness :
    decryptChunk ⟨0, flipBit (encryptChunk 5 3 0 [10, 20]).ciphertext 0 1,
        (encryptChunk 5 3 0 [10, 20]).authenticationTag⟩ 5 3 =
      Except.error TransferError.IntegrityError :=
  (tamper_chunk_integrityError 5 3 0 0 1 [10, 20] SessionState.Streaming
    (by decide) (by decide)).1

/-! ## Symmetric key and nonce freshness -/

/-- Modelled from the spec: the fresh symmetric key of a session.  Fresh
random key material is modelled as the session creation counter, distinct
for every session and owned exclusively by it. -/
def sessionKey (sessionIndex : Nat) : Nat := sessionIndex

/-- Modelled from the spec: the (symmetricKey, nonce) pairs consumed when a
transfer encrypts a chunk sequence — the session key paired with
nonce = per-session salt + sequenceNumber, as in `encryptForTransfer`. -/
def transferPairs (symKey salt : Nat) (chunks : List (Nat × List Nat)) :
    List (Nat × Nat) :=
  chunks.map (fun p => (symKey, salt + p.1))

/-- Modelled from the spec: all (symmetricKey, nonce) pairs used across a
whole system trace.  Session k streams the split of its own file with its
own salt under the fresh key `sessionKey k`. -/
def systemUsedPairs (sessions : List (List Nat × Nat × Nat)) : List (Nat × Nat) :=
  (List.range sessions.length).flatMap (fun k =>
    transferPairs (sessionKey k) (sessions.getD k ([], 1, 0)).2.2
      (split (sessions.getD k ([], 1, 0)).1 (sessions.getD k ([], 1, 0)).2.1))

theorem transferPairs_split_nodup (symKey salt c : Nat) (F : List Nat) :
    (transferPairs symKey salt (split F c)).Nodup := by
  have h1 : transferPairs symKey salt (split F c) =
      ((split F c).map Prod.fst).map (fun x => (symKey, salt + x)) := by
    rw [List.map_map]
    rfl
  rw [h1, split, splitAux_map_fst]
  refine List.Nodup.map ?_ (List.nodup_range' _ _)
  intro a b hab
  simp only [Prod.mk.injEq, true_and] at hab
  omega

theorem systemUsedPairs_nodup (sessions : List (List Nat × Nat × Nat)) :
    (systemUsedPairs sessions).Nodup := by
  rw [systemUsedPairs, List.nodup_flatMap]
  constructor
  · intro k _
    exact transferPairs_split_nodup _ _ _ _
  · refine (List.pairwise_lt_range _).imp ?_
    intro a b hab x hx1 hx2
    simp only [transferPairs, List.mem_map] at hx1 hx2
    obtain ⟨p, _, hp⟩ := hx1
    obtain ⟨q, _, hq⟩ := hx2
    have hfst := congrArg Prod.fst (hp.trans hq.symm)
    simp only [sessionKey] at hfst
    omega

/-- C7: across a whole system trace no (symmetricKey, nonce) pair is used
twice; sessions created at different times have different symmetric keys;
within one session every chunk carries the session key and all
(key, nonce) pairs of the session are distinct. -/
theorem keyNonce_never_reused (sessions : List (List Nat × Nat × Nat))
    (symKey salt c k1 k2 : Nat) (F : List Nat) (hk : k1 ≠ k2) :
    (systemUsedPairs sessions).Nodup
    ∧ sessionKey k1 ≠ sessionKey k2
    ∧ (∀ q ∈ transferPairs symKey salt (split F c), q.1 = symKey)
    ∧ (transferPairs symKey salt (split F c)).Nodup := by
  refine ⟨systemUsedPairs_nodup sessions, hk, ?_, transferPairs_split_nodup _ _ _ _⟩
  intro q hq
  simp only [transferPairs, List.mem_map] at hq
  obtain ⟨p, _, hp⟩ := hq
  rw [← hp]

/-- Witness for C7 at concrete session indices and a concrete trace. -/
theorem keyNonce_never_reused_witness :
    (systemUsedPairs [([1, 2, 3], 2, 5)]).Nodup ∧ sessionKey 0 ≠ sessionKey 1 := by
  have h := keyNonce_never_reused [([1, 2, 3], 2, 5)] 7 5 2 0 1 [1, 2, 3] (by decide)
  exact ⟨h.1, h.2.1⟩

/-! ## TransferSession state machine -/

/-- Modelled from the spec: protocol events driving the TransferSession
state machine. -/
inductive SessionEvent where
  | keyAck      -- encrypted symmetric key envelope delivered and acknowledged
  | chunkSent   -- a chunk send / in-order chunk application
  | finalAck    -- reassembly finished and final acknowledgment emitted
  | protoError  -- IntegrityError, DecryptionError, unrecovered out-of-order
  | idleTimeout -- idle threshold exceeded
deriving DecidableEq

/-- Modelled from the spec: the TransferSession transition function;
`none` means the event is not permitted in that state. -/
def sessionStep : SessionState → SessionEvent → Option SessionState
  | .Initiated, .keyAck => some .KeyExchanged
  | .KeyExchanged, .chunkSent => some .Streaming
  | .Streaming, .chunkSent => some .Streaming
  | .Streaming, .finalAck => some .Completed
  | s, .protoError => if s.isTerminal then none else some .Failed
  | s, .idleTimeout => if s.isTerminal then none else some .TimedOut
  | _, _ => none

/-- A run of the session machine from `Initiated`; a rejected event leaves
the state unchanged. -/
def runSession (evs : List SessionEvent) : SessionState :=
  evs.foldl (fun s e => (sessionStep s e).getD s) SessionState.Initiated

/-- C5: no direct Initiated → Streaming transition exists — a chunk event
is not even permitted in Initiated — and every run that reaches Streaming
passed through KeyExchanged (key envelope delivered and acknowledged) on
a proper prefix first. -/
theorem no_initiated_to_streaming (e : SessionEvent) (evs : List SessionEvent) :
    sessionStep SessionState.Initiated e ≠ some SessionState.Streaming
    ∧ sessionStep SessionState.Initiated SessionEvent.chunkSent = none
    ∧ (runSession evs = SessionState.Streaming →
        ∃ pfx rest, evs = pfx ++ rest ∧ runSession pfx = SessionState.KeyExchanged) := by
  refine ⟨?_, rfl, ?_⟩
  · cases e <;> simp [sessionStep, SessionState.isTerminal]
  · induction evs using List.reverseRecOn with
    | nil =>
        intro h
        simp [runSession] at h
    | append_singleton l e2 ih =>
        intro h
        have hstep : (sessionStep (runSession l) e2).getD (runSession l) =
            SessionState.Streaming := by
          simpa [runSession, List.foldl_append] using h
        cases hs : runSession l with
        | Initiated =>
            rw [hs] at hstep
            cases e2 <;> simp [sessionStep, SessionState.isTerminal] at hstep
        | KeyExchanged =>
            rw [hs] at hstep
            cases e2 with
            | chunkSent => exact ⟨l, [SessionEvent.chunkSent], rfl, hs⟩
            | keyAck => simp [sessionStep] at hstep
            | finalAck => simp [sessionStep] at hstep
            | protoError => simp [sessionStep, SessionState.isTerminal] at hstep
            | idleTimeout => simp [sessionStep, SessionState.isTerminal] at hstep
        | Streaming =>
            obtain ⟨pfx, rest, hevs, hpfx⟩ := ih hs
            exact ⟨pfx, rest ++ [e2], by rw [hevs, List.append_assoc], hpfx⟩
        | Completed =>
            rw [hs] at hstep
            cases e2 <;> simp [sessionStep, SessionState.isTerminal] at hstep
        | Failed =>
            rw [hs] at hstep
            cases e2 <;> simp [sessionStep, SessionState.isTerminal] at hstep
        | TimedOut =>
            rw [hs] at hstep
            cases e2 <;> simp [sessionStep, SessionState.isTerminal] at hstep

/-- Witness for C5: a run that reaches Streaming, with its KeyExchanged
prefix exhibited by the theorem. -/
theorem no_initiated_to_streaming_witness :
    ∃ pfx rest, [SessionEvent.keyAck, SessionEvent.chunkSent] = pfx ++ rest
      ∧ runSession pfx = SessionState.KeyExchanged :=
  (no_initiated_to_streaming SessionEvent.keyAck
    [SessionEvent.keyAck, SessionEvent.chunkSent]).2.2 (by decide)

/-! ## SessionRegistry and idle timeout -/

/-- Modelled from the spec: one registry entry of a TransferSession. -/
structure SessionRec where
  sessionId : Nat
  state : SessionState
  lastActivityAt : Nat
deriving DecidableEq

/-- Modelled from the spec: lookup in the SessionRegistry by session id. -/
def lookup (reg : List SessionRec) (sid : Nat) : Option SessionRec :=
  reg.find? (fun s => s.sessionId == sid)

/-- A session has expired at `now` when it is non-terminal and its idle
time `now - lastActivityAt` exceeds the threshold. -/
def expired (now threshold : Nat) (s : SessionRec) : Bool :=
  !s.state.isTerminal && decide (threshold < now - s.lastActivityAt)

/-- Modelled from the spec: the idle-timeout sweep — every expired session
transitions to TimedOut and is evicted from the registry (second
component); the registry keeps the others (first component). -/
def sweepTimeouts (reg : List SessionRec) (now threshold : Nat) :
    List SessionRec × List SessionRec :=
  (reg.filter (fun s => !expired now threshold s),
   (reg.filter (expired now threshold)).map
     (fun s => { s with state := SessionState.TimedOut }))

/-- Modelled from the spec: `SessionRegistry.get` fails with NotFoundError
when the id is absent. -/
def getSession (reg : List SessionRec) (sid : Nat) :
    Except TransferError SessionRec :=
  match lookup reg sid with
  | some s => .ok s
  | none => .error .NotFoundError

/-- C8: a registered non-terminal session whose idle time exceeds the
threshold is transitioned to TimedOut and evicted by the sweep, after
which lookups of its id find nothing and operations on it fail with
NotFoundError. -/
theorem idle_timeout_evicts (reg : List SessionRec) (now threshold sid : Nat)
    (s : SessionRec)
    (hnodup : (reg.map SessionRec.sessionId).Nodup)
    (hfind : lookup reg sid = some s)
    (hnonterm : s.state.isTerminal = false)
    (hidle : threshold < now - s.lastActivityAt) :
    { s with state := SessionState.TimedOut } ∈ (sweepTimeouts reg now threshold).2
    ∧ lookup (sweepTimeouts reg now threshold).1 sid = none
    ∧ getSession (sweepTimeouts reg now threshold).1 sid =
        Except.error TransferError.NotFoundError := by
  have hmem : s ∈ reg := List.mem_of_find?_eq_some hfind
  have hsid : s.sessionId = sid := by
    have := List.find?_some hfind
    simpa using this
  have hexp : expired now threshold s = true := by
    simp [expired, hnonterm, hidle]
  have hnone : lookup (sweepTimeouts reg now threshold).1 sid = none := by
    rw [lookup, List.find?_eq_none]
    intro x hx
    rcases List.mem_filter.mp hx with ⟨hxreg, hxkeep⟩
    intro hxsid
    have hxeq : x = s := by
      apply List.inj_on_of_nodup_map hnodup hxreg hmem
      rw [hsid]
      simpa using hxsid
    rw [hxeq, hexp] at hxkeep
    simp at hxkeep
  refine ⟨?_, hnone, ?_⟩
  · exact List.mem_map_of_mem _ (List.mem_filter.mpr ⟨hmem, hexp⟩)
  · simp [getSession, hnone]

/-- Witness for C8 at a concrete registry, clock and threshold. -/
theorem idle_timeout_evicts_witness :
    lookup (sweepTimeouts [⟨1, SessionState.Streaming, 0⟩] 100 10).1 1 = none :=
  (idle_timeout_evicts [⟨1, SessionState.Streaming, 0⟩] 100 10 1
    ⟨1, SessionState.Streaming, 0⟩ (by decide) (by decide) (by decide) (by decide)).2.1

/-! ## Flask key-generation endpoint (src/server/app.py, generate_keys) -/

/-- A JSON response of the key-generation endpoint: HTTP status code plus
the fields the handler passes to jsonify — status, message, and (on
success only) public_key.  These are the only fields the response
carries. -/
structure JsonResponse where
  httpStatus : Nat
  status : String
  message : String
  public_key : Option Nat
deriving DecidableEq

/-- Modelled from the spec: key_manager.generate_key_pair (the KeyManager
source file is not under src/) — a fresh (private_key, public_key) pair
from a cryptographically secure generator.  Freshness is modelled by a
generation counter; key material as numbers with private keys even and
public keys odd, so no private key ever coincides with a public key. -/
def generate_key_pair (counter : Nat) : Nat × Nat := (2 * counter, 2 * counter + 1)

/-- Server-side key-manager state: the generation counter plus the key
pairs saved per user id. -/
structure ServerState where
  counter : Nat
  savedKeys : List (String × Nat × Nat)
deriving DecidableEq

/-- Modelled from the spec: key_manager.save_key_pair — persists the pair
under the user id, overwriting any prior pair for that identity. -/
def save_key_pair (uid : String) (priv pub : Nat) (st : ServerState) :
    ServerState :=
  { st with savedKeys := (uid, priv, pub) :: st.savedKeys.filter (fun e => e.1 != uid) }

/-- The `generate_keys` POST handler of src/server/app.py: a missing or
empty user_id yields 400 / error / 'User ID is required' with the state
untouched; otherwise a fresh pair is generated, saved under the user id,
and the response carries status success and the public key only. -/
def generate_keys (user_id : Option String) (st : ServerState) :
    JsonResponse × ServerState :=
  match user_id with
  | none => (⟨400, "error", "User ID is required", none⟩, st)
  | some uid =>
      if uid = "" then
        (⟨400, "error", "User ID is required", none⟩, st)
      else
        (⟨200, "success", "Keys generated successfully",
            some (generate_key_pair st.counter).2⟩,
         save_key_pair uid (generate_key_pair st.counter).1
           (generate_key_pair st.counter).2 { st with counter := st.counter + 1 })

/-- The key material carried by a response: the public_key field is the
only key-material field the handler passes to jsonify. -/
def responseKeyMaterial (r : JsonResponse) : List Nat :=
  r.public_key.toList

/-- C9: a successful POST returns status success with the newly generated
public key; the response's only key material is that public key — no
private key of any generation appears in it — and the private key is
retained server-side in the key store. -/
theorem generate_keys_success (uid : String) (st : ServerState) (huid : uid ≠ "") :
    (generate_keys (some uid) st).1.httpStatus = 200
    ∧ (generate_keys (some uid) st).1.status = "success"
    ∧ (generate_keys (some uid) st).1.public_key = some (generate_key_pair st.counter).2
    ∧ responseKeyMaterial (generate_keys (some uid) st).1 =
        [(generate_key_pair st.counter).2]
    ∧ (∀ c : Nat,
        (generate_key_pair c).1 ∉ responseKeyMaterial (generate_keys (some uid) st).1)
    ∧ (uid, (generate_key_pair st.counter).1, (generate_key_pair st.counter).2) ∈
        (generate_keys (some uid) st).2.savedKeys := by
  refine ⟨?_, ?_, ?_, ?_, ?_, ?_⟩
  · simp [generate_keys, if_neg huid]
  · simp [generate_keys, if_neg huid]
  · simp [generate_keys, if_neg huid]
  · simp [generate_keys, if_neg huid, responseKeyMaterial]
  · intro c
    simp only [generate_keys, if_neg huid, responseKeyMaterial, generate_key_pair,
      Option.toList_some, List.mem_singleton]
    omega
  · simp [generate_keys, if_neg huid, save_key_pair]

/-- The user id used by the C9 witness. -/
def aliceId : String := "alice"

/-- Witness for C9 at a concrete user id and server state. -/
theorem generate_keys_success_witness :
    (generate_keys (some aliceId) ⟨0, []⟩).1.status = "success"
    ∧ (∀ c : Nat,
        (generate_key_pair c).1 ∉
          responseKeyMaterial (generate_keys (some aliceId) ⟨0, []⟩).1) := by
  have h := generate_keys_success aliceId ⟨0, []⟩ (by decide)
  exact ⟨h.2.1, h.2.2.2.2.1⟩

/-- The empty user id rejected by the endpoint. -/
def emptyId : String := ""

/-- C10: a POST whose body lacks user_id, or carries an empty one, gets
HTTP 400 with status error and message 'User ID is required', and the
server state is untouched — no key pair generated, nothing saved. -/
theorem generate_keys_missing_user (st : ServerState) :
    generate_keys none st = (⟨400, "error", "User ID is required", none⟩, st)
    ∧ generate_keys (some emptyId) st =
        (⟨400, "error", "User ID is required", none⟩, st) := by
  refine ⟨rfl, ?_⟩
  simp [generate_keys, emptyId]

end SecureTransfer
